import Mathlib

/-!
Verification development for the `since_when` event-tracking application.

The aggregation engine lives in `src/utils.rs`:
`get_days_since_now`, `get_elapsed_days`, `get_averages`, `sort_events`,
composed by `event_details`.  A second, older copy of the first three
functions lives in `src/events.rs` as methods of `EventsPage`.

Modelling choices (shallow embedding):
- Rust `HashMap<String, Vec<i32>>` is modelled as an association list
  `List (String × List Int)` whose order is the insertion order; where a
  claim depends on the unspecified iteration order of a `HashMap`, the
  iteration order is modelled as an arbitrary permutation of the list.
- `i32` values are modelled as `Int`.  The day counts that actually occur
  are bounded by the chrono date range (about 96 million days), so `i32`
  wrap-around is unreachable and is not modelled.  Rust integer division
  `/` on `i32` truncates toward zero and is modelled by `Int.tdiv`;
  division by zero panics in Rust and is modelled by `Option.none`.
- Rust panics (`unwrap`, out-of-bounds indexing, division by zero) are
  modelled by an `Option` result, `none` meaning the call panics.
- `chrono::NaiveDate` is a record of year, month and day;
  `NaiveDate::parse_from_str(s, "%Y-%m-%d")` is modelled for dates with
  non-negative years (the only dates this application produces: the store
  only holds dates written by the calendar UI).  Day subtraction
  `now.signed_duration_since(date).num_days()` is modelled with the
  standard civil-calendar day-number function.
- `chrono::Local::now()` is an ambient input; it is passed explicitly as
  the `now` parameter, captured once per call as in the source.
-/

/-- The `EventOccurrence` struct of `src/events.rs`: one recorded instance
of a tracked event, with its date kept as a string. -/
structure EventOccurrence where
  name : String
  date : String
  deriving DecidableEq

/-- A calendar date, modelling `chrono::NaiveDate`. -/
structure NaiveDate where
  year : Int
  month : Nat
  day : Nat
  deriving DecidableEq

/-- Gregorian leap-year test, as in chrono. -/
def is_leap_year (y : Int) : Bool :=
  y % 4 == 0 && (y % 100 != 0 || y % 400 == 0)

/-- The number of days of a month in a given year, as in chrono. -/
def days_in_month (y : Int) (m : Nat) : Nat :=
  if m == 2 then (if is_leap_year y then 29 else 28)
  else if m == 4 || m == 6 || m == 9 || m == 11 then 30
  else 31

/-- Split a character list at every dash, keeping the fragments. -/
def split_on_dash : List Char → List (List Char)
  | [] => [[]]
  | c :: rest =>
    let r := split_on_dash rest
    if c == '-' then [] :: r
    else
      match r with
      | [] => [[c]]
      | g :: gs => (c :: g) :: gs

/-- Read a block of decimal digits, accumulator form. -/
def digits_to_nat_aux (acc : Nat) : List Char → Option Nat
  | [] => some acc
  | c :: rest =>
    if c.isDigit then digits_to_nat_aux (acc * 10 + (c.toNat - 48)) rest
    else none

/-- Read a non-empty block of decimal digits as a number. -/
def digits_to_nat (cs : List Char) : Option Nat :=
  if cs.isEmpty then none else digits_to_nat_aux 0 cs

/-- The date parser used at `src/utils.rs:44` and `src/events.rs:61`:
`NaiveDate::parse_from_str(s, "%Y-%m-%d")`, for non-negative years.  The
string must be exactly three dash-separated digit blocks, the month and
day blocks of width at most two, forming a valid calendar date inside
chrono's representable year range. -/
def parse_from_str (s : String) : Option NaiveDate :=
  match split_on_dash s.data with
  | [ys, ms, ds] =>
    match digits_to_nat ys, digits_to_nat ms, digits_to_nat ds with
    | some y, some m, some d =>
      if ms.length ≤ 2 ∧ ds.length ≤ 2 ∧
          1 ≤ m ∧ m ≤ 12 ∧ 1 ≤ d ∧ d ≤ days_in_month (Int.ofNat y) m ∧
          y ≤ 262143 then
        some ⟨Int.ofNat y, m, d⟩
      else none
    | _, _, _ => none
  | _ => none

/-- Day number of a date (civil-from-days algorithm); differences of day
numbers model `now.signed_duration_since(date).num_days()` at
`src/utils.rs:51` and `src/events.rs:63`. -/
def days_from_civil (dt : NaiveDate) : Int :=
  let y : Int := if dt.month ≤ 2 then dt.year - 1 else dt.year
  let era : Int := y / 400
  let yoe : Int := y - era * 400
  let mp : Int := (Int.ofNat dt.month + 9) % 12
  let doy : Int := (153 * mp + 2) / 5 + Int.ofNat dt.day - 1
  let doe : Int := yoe * 365 + yoe / 4 - yoe / 100 + doy
  era * 146097 + doe - 719468

/-- The insert-or-append idiom of `src/utils.rs:52-63` and
`src/events.rs:65-70` (and of the inner loop of
`EventsPage::get_elapsed_days`): if the key is present, push `v` onto its
vector, otherwise insert the key with the one-element vector `[v]`. -/
def insert_append (m : List (String × List Int)) (k : String) (v : Int) :
    List (String × List Int) :=
  if m.any (fun p => p.1 == k) then
    m.map (fun p => if p.1 == k then (p.1, p.2 ++ [v]) else p)
  else m ++ [(k, [v])]

/-- Loop of `utils::get_days_since_now` (`src/utils.rs:42-64`): occurrences
whose date fails to parse are skipped (logged and `continue`), the rest
contribute `now - date` in days to their event's vector. -/
def get_days_since_now_aux (now : NaiveDate) (m : List (String × List Int)) :
    List EventOccurrence → List (String × List Int)
  | [] => m
  | e :: rest =>
    match parse_from_str e.date with
    | none => get_days_since_now_aux now m rest
    | some d =>
      get_days_since_now_aux now
        (insert_append m e.name (days_from_civil now - days_from_civil d)) rest

/-- `utils::get_days_since_now` (`src/utils.rs:39-66`). -/
def get_days_since_now (now : NaiveDate) (events : List EventOccurrence) :
    List (String × List Int) :=
  get_days_since_now_aux now [] events

/-- The inner loop of both elapsed-days functions
(`src/utils.rs:99-102`, `src/events.rs:80-81`):
`days[1] - days[0], days[2] - days[1], ...`. -/
def consecutive_diffs (l : List Int) : List Int :=
  List.zipWith (fun a b => b - a) l l.tail

/-- The `entry(k).or_insert(v)` idiom (`src/utils.rs:103` and
`src/utils.rs:137`): insert only when the key is absent. -/
def entry_or_insert {α : Type} (m : List (String × α)) (k : String) (v : α) :
    List (String × α) :=
  if m.any (fun p => p.1 == k) then m else m ++ [(k, v)]

/-- Loop of `utils::get_elapsed_days` (`src/utils.rs:96-105`): events with
at least two day counts contribute the vector of consecutive differences,
events with fewer are skipped. -/
def get_elapsed_days_aux (acc : List (String × List Int)) :
    List (String × List Int) → List (String × List Int)
  | [] => acc
  | (k, v) :: rest =>
    if 1 < v.length then
      get_elapsed_days_aux (entry_or_insert acc k (consecutive_diffs v)) rest
    else get_elapsed_days_aux acc rest

/-- `utils::get_elapsed_days` (`src/utils.rs:94-107`). -/
def get_elapsed_days (days_since : List (String × List Int)) :
    List (String × List Int) :=
  get_elapsed_days_aux [] days_since

/-- `item.1.iter().sum::<i32>()` (`src/utils.rs:136`). -/
def int_sum (l : List Int) : Int :=
  l.foldl (fun a b => a + b) 0

/-- Loop of `utils::get_averages` (`src/utils.rs:135-138`): for each event
the truncating integer division `sum / len`; a zero length panics in Rust
(division by zero), modelled by `none`. -/
def get_averages_aux (acc : List (String × Int)) :
    List (String × List Int) → Option (List (String × Int))
  | [] => some acc
  | (k, v) :: rest =>
    if v.length == 0 then none
    else
      get_averages_aux
        (entry_or_insert acc k (Int.tdiv (int_sum v) (Int.ofNat v.length))) rest

/-- `utils::get_averages` (`src/utils.rs:133-140`). -/
def get_averages (elapsed : List (String × List Int)) :
    Option (List (String × Int)) :=
  get_averages_aux [] elapsed

/-- The comparison of `sort_events` (`src/utils.rs:183`):
`a.1.cmp(&b.1)`, i.e. ordering by the days-since component. -/
def days_le (a b : String × Int × Int) : Prop :=
  a.2.1 ≤ b.2.1

instance : DecidableRel days_le :=
  fun a b => inferInstanceAs (Decidable (a.2.1 ≤ b.2.1))

instance : IsTotal (String × Int × Int) days_le :=
  ⟨fun a b => le_total a.2.1 b.2.1⟩

instance : IsTrans (String × Int × Int) days_le :=
  ⟨fun _ _ _ hab hbc => le_trans hab hbc⟩

/-- The tuple built for one event by `sort_events` (`src/utils.rs:177-181`):
name, first day count, average defaulting to 0. -/
def tuple_of (averages : List (String × Int)) (p : String × List Int) :
    String × Int × Int :=
  (p.1, p.2.headI, (List.lookup p.1 averages).getD 0)

/-- Tuple-building loop of `sort_events` (`src/utils.rs:176-182`):
`event.1[0]` panics on an empty vector, modelled by `none`. -/
def make_tuples (events : List (String × List Int))
    (averages : List (String × Int)) : Option (List (String × Int × Int)) :=
  events.mapM (fun p =>
    match p.2.head? with
    | none => none
    | some d => some (p.1, d, (List.lookup p.1 averages).getD 0))

/-- `utils::sort_events` (`src/utils.rs:171-185`).  Rust's `sort_by` is a
stable sort, so its result is the insertion sort by the same key. -/
def sort_events (events : List (String × List Int))
    (averages : List (String × Int)) : Option (List (String × Int × Int)) :=
  match make_tuples events averages with
  | none => none
  | some tuples => some (List.insertionSort days_le tuples)

/-- The pure tail of `utils::event_details` (`src/utils.rs:191-210`): the
pipeline from the fetched occurrence list to the sorted summary. -/
def event_details (now : NaiveDate) (events : List EventOccurrence) :
    Option (List (String × Int × Int)) :=
  let days_since_now := get_days_since_now now events
  let elapsed := get_elapsed_days days_since_now
  match get_averages elapsed with
  | none => none
  | some averages => sort_events days_since_now averages

namespace EventsPage

/-- Loop of `EventsPage::get_days_since_now` (`src/events.rs:59-71`): the
date parse result is unwrapped, so a parse failure panics (`none`). -/
def get_days_since_now_aux (now : NaiveDate) (m : List (String × List Int)) :
    List EventOccurrence → Option (List (String × List Int))
  | [] => some m
  | e :: rest =>
    match parse_from_str e.date with
    | none => none
    | some d =>
      get_days_since_now_aux now
        (insert_append m e.name (days_from_civil now - days_from_civil d)) rest

/-- `EventsPage::get_days_since_now` (`src/events.rs:57-73`). -/
def get_days_since_now (now : NaiveDate) (events : List EventOccurrence) :
    Option (List (String × List Int)) :=
  get_days_since_now_aux now [] events

/-- Loop of `EventsPage::get_elapsed_days` (`src/events.rs:78-92`): for an
event with at least two day counts, each consecutive difference is pushed
one at a time with the vacant-entry-or-push idiom. -/
def get_elapsed_days_aux (acc : List (String × List Int)) :
    List (String × List Int) → List (String × List Int)
  | [] => acc
  | (k, v) :: rest =>
    if 1 < v.length then
      get_elapsed_days_aux
        ((consecutive_diffs v).foldl (fun a d => insert_append a k d) acc) rest
    else get_elapsed_days_aux acc rest

/-- `EventsPage::get_elapsed_days` (`src/events.rs:76-94`). -/
def get_elapsed_days (days_since : List (String × List Int)) :
    List (String × List Int) :=
  get_elapsed_days_aux [] days_since

end EventsPage

/-- Specification-side recurrence: the days-since values contributed by the
occurrences of event `k`, in input order, skipping unparseable dates. -/
def per_event_days (now : NaiveDate) : List EventOccurrence → String → List Int
  | [], _ => []
  | e :: rest, k =>
    if e.name == k then
      match parse_from_str e.date with
      | none => per_event_days now rest k
      | some d =>
        (days_from_civil now - days_from_civil d) :: per_event_days now rest k
    else per_event_days now rest k

/-! ### Association-list lemmas -/

/-- The `contains_key` test agrees with `lookup` succeeding. -/
theorem any_key_eq_lookup_isSome {α : Type} (m : List (String × α)) (k : String) :
    (m.any (fun p => p.1 == k)) = (List.lookup k m).isSome := by
  induction m with
  | nil => rfl
  | cons p rest ih =>
    by_cases hk : k = p.1
    · have h1 : (k == p.1) = true := beq_iff_eq.mpr hk
      have h2 : (p.1 == k) = true := beq_iff_eq.mpr hk.symm
      rw [List.any_cons, h2, List.lookup_cons, h1]
      rfl
    · have h1 : (k == p.1) = false := beq_eq_false_iff_ne.mpr hk
      have h2 : (p.1 == k) = false := beq_eq_false_iff_ne.mpr (fun h => hk h.symm)
      rw [List.any_cons, h2, List.lookup_cons, h1, Bool.false_or]
      exact ih

/-- Lookup through an append, found on the left. -/
theorem lookup_append_left {α : Type} {m₁ : List (String × α)} {k : String}
    {v : α} (m₂ : List (String × α)) (h : List.lookup k m₁ = some v) :
    List.lookup k (m₁ ++ m₂) = some v := by
  induction m₁ with
  | nil => simp [List.lookup] at h
  | cons p rest ih =>
    by_cases hk : k = p.1
    · have h1 : (k == p.1) = true := beq_iff_eq.mpr hk
      rw [List.lookup_cons, h1] at h
      rw [List.cons_append, List.lookup_cons, h1]
      exact h
    · have h1 : (k == p.1) = false := beq_eq_false_iff_ne.mpr hk
      rw [List.lookup_cons, h1] at h
      rw [List.cons_append, List.lookup_cons, h1]
      exact ih h

/-- Lookup through an append, absent on the left. -/
theorem lookup_append_right {α : Type} {m₁ : List (String × α)} {k : String}
    (m₂ : List (String × α)) (h : List.lookup k m₁ = none) :
    List.lookup k (m₁ ++ m₂) = List.lookup k m₂ := by
  induction m₁ with
  | nil => rfl
  | cons p rest ih =>
    by_cases hk : k = p.1
    · have h1 : (k == p.1) = true := beq_iff_eq.mpr hk
      rw [List.lookup_cons, h1] at h
      exact absurd h (by simp)
    · have h1 : (k == p.1) = false := beq_eq_false_iff_ne.mpr hk
      rw [List.lookup_cons, h1] at h
      rw [List.cons_append, List.lookup_cons, h1]
      exact ih h

/-- Lookup after updating the entries of one key with `f`. -/
theorem lookup_map_update {α : Type} (m : List (String × α)) (k : String)
    (f : α → α) :
    List.lookup k (m.map (fun p => if p.1 == k then (p.1, f p.2) else p)) =
      (List.lookup k m).map f := by
  induction m with
  | nil => rfl
  | cons p rest ih =>
    by_cases hk : k = p.1
    · have h1 : (k == p.1) = true := beq_iff_eq.mpr hk
      have h2 : (p.1 == k) = true := beq_iff_eq.mpr hk.symm
      rw [List.map_cons, h2, if_pos rfl, List.lookup_cons]
      rw [List.lookup_cons, h1]
      simp [h1]
    · have h1 : (k == p.1) = false := beq_eq_false_iff_ne.mpr hk
      have h2 : (p.1 == k) = false := beq_eq_false_iff_ne.mpr (fun h => hk h.symm)
      rw [List.map_cons, h2, if_neg (by simp [h2]), List.lookup_cons,
        List.lookup_cons, h1]
      simpa using ih

/-- Updating the entries of a different key does not change a lookup. -/
theorem lookup_map_update_ne {α : Type} (m : List (String × α)) {k q : String}
    (f : α → α) (h : q ≠ k) :
    List.lookup k (m.map (fun p => if p.1 == q then (p.1, f p.2) else p)) =
      List.lookup k m := by
  induction m with
  | nil => rfl
  | cons p rest ih =>
    rw [List.map_cons]
    by_cases hq : p.1 = q
    · have h2 : (p.1 == q) = true := beq_iff_eq.mpr hq
      have hk : (k == p.1) = false :=
        beq_eq_false_iff_ne.mpr (fun hh => h (hq ▸ hh.symm))
      rw [h2, if_pos rfl, List.lookup_cons, List.lookup_cons]
      simp only [hk]
      exact ih
    · have h2 : (p.1 == q) = false := beq_eq_false_iff_ne.mpr hq
      rw [h2, if_neg (by simp [h2]), List.lookup_cons, List.lookup_cons]
      by_cases hk : k = p.1
      · have h3 : (k == p.1) = true := beq_iff_eq.mpr hk
        simp only [h3]
      · have h3 : (k == p.1) = false := beq_eq_false_iff_ne.mpr hk
        simp only [h3]
        exact ih

/-- A key is among the map's keys exactly when its lookup succeeds. -/
theorem mem_keys_iff_lookup_isSome {α : Type} (m : List (String × α))
    (k : String) :
    k ∈ m.map Prod.fst ↔ (List.lookup k m).isSome := by
  induction m with
  | nil => simp [List.lookup]
  | cons p rest ih =>
    by_cases hk : k = p.1
    · have h1 : (k == p.1) = true := beq_iff_eq.mpr hk
      simp [List.lookup_cons, h1, hk]
    · have h1 : (k == p.1) = false := beq_eq_false_iff_ne.mpr hk
      simp [List.lookup_cons, h1, hk, ih]

/-! ### Lemmas about the insert-or-append idioms -/

/-- Pushing onto a key's vector, as seen through lookup of that key. -/
theorem lookup_insert_append_self (m : List (String × List Int)) (k : String)
    (v : Int) :
    List.lookup k (insert_append m k v) =
      some (((List.lookup k m).getD []) ++ [v]) := by
  unfold insert_append
  rw [any_key_eq_lookup_isSome]
  cases hm : List.lookup k m with
  | none =>
    simp only [Option.isSome_none, Bool.false_eq_true, if_false]
    rw [lookup_append_right _ hm, List.lookup_cons, beq_self_eq_true k]
    rfl
  | some l =>
    simp only [Option.isSome_some, if_true]
    rw [lookup_map_update m k (fun u => u ++ [v]), hm]
    rfl

/-- Pushing onto another key's vector does not change a lookup. -/
theorem lookup_insert_append_ne (m : List (String × List Int)) {k q : String}
    (v : Int) (h : q ≠ k) :
    List.lookup k (insert_append m q v) = List.lookup k m := by
  unfold insert_append
  cases hc : m.any (fun p => p.1 == q) with
  | true =>
    simp only [if_true]
    exact lookup_map_update_ne m (fun u => u ++ [v]) h
  | false =>
    simp only [Bool.false_eq_true, if_false]
    cases hm : List.lookup k m with
    | none =>
      rw [lookup_append_right _ hm, List.lookup_cons]
      have h1 : (k == q) = false := beq_eq_false_iff_ne.mpr (fun hh => h hh.symm)
      rw [h1]
      rfl
    | some l => exact lookup_append_left _ hm

/-- The keys after an insert-or-append step. -/
theorem keys_insert_append (m : List (String × List Int)) (k : String)
    (v : Int) :
    (insert_append m k v).map Prod.fst =
      if (List.lookup k m).isSome then m.map Prod.fst
      else m.map Prod.fst ++ [k] := by
  unfold insert_append
  rw [any_key_eq_lookup_isSome]
  cases hs : (List.lookup k m).isSome with
  | true =>
    simp only [if_true]
    rw [List.map_map]
    apply List.map_congr_left
    intro p _
    by_cases hp : p.1 = k
    · simp [hp]
    · simp [hp]
  | false =>
    simp only [Bool.false_eq_true, if_false]
    rw [List.map_append]
    rfl

/-- Values added by insert-or-append steps are never the empty vector. -/
theorem insert_append_values_ne_nil (m : List (String × List Int))
    (k : String) (v : Int) (h : ∀ p ∈ m, p.2 ≠ []) :
    ∀ p ∈ insert_append m k v, p.2 ≠ [] := by
  unfold insert_append
  cases hc : m.any (fun p => p.1 == k) with
  | true =>
    simp only [if_true]
    intro p hp
    rcases List.mem_map.mp hp with ⟨q, hq, hqe⟩
    by_cases h2 : q.1 = k
    · have h3 : (q.1 == k) = true := beq_iff_eq.mpr h2
      rw [if_pos h3] at hqe
      rw [← hqe]
      simp
    · have h3 : (q.1 == k) = false := beq_eq_false_iff_ne.mpr h2
      rw [if_neg (by simp [h3])] at hqe
      rw [← hqe]
      exact h q hq
  | false =>
    simp only [Bool.false_eq_true, if_false]
    intro p hp
    rcases List.mem_append.mp hp with h2 | h2
    · exact h p h2
    · rcases List.mem_singleton.mp h2 with rfl
      simp

/-! ### Characterization of the grouping loop -/

/-- A lookup after the grouping loop ran over `evs` starting from
accumulator `m`: the events of key `k` extend the accumulated vector with
their days-since values in input order. -/
theorem get_days_since_now_aux_lookup (now : NaiveDate)
    (evs : List EventOccurrence) :
    ∀ (m : List (String × List Int)) (k : String),
      List.lookup k (get_days_since_now_aux now m evs) =
        match List.lookup k m with
        | some l => some (l ++ per_event_days now evs k)
        | none =>
          if per_event_days now evs k = [] then none
          else some (per_event_days now evs k) := by
  induction evs with
  | nil =>
    intro m k
    simp only [get_days_since_now_aux, per_event_days]
    cases hLk : List.lookup k m with
    | none => simp
    | some l => simp
  | cons e rest ih =>
    intro m k
    cases hp : parse_from_str e.date with
    | none =>
      have hL : get_days_since_now_aux now m (e :: rest) =
          get_days_since_now_aux now m rest := by
        simp only [get_days_since_now_aux, hp]
      have hP : per_event_days now (e :: rest) k = per_event_days now rest k := by
        by_cases hk : e.name = k
        · have hbe : (e.name == k) = true := beq_iff_eq.mpr hk
          simp only [per_event_days, hbe, hp, if_true]
        · have hbe : (e.name == k) = false := beq_eq_false_iff_ne.mpr hk
          simp only [per_event_days, hbe, Bool.false_eq_true, if_false]
      rw [hL, hP]
      exact ih m k
    | some d =>
      have hL : get_days_since_now_aux now m (e :: rest) =
          get_days_since_now_aux now
            (insert_append m e.name (days_from_civil now - days_from_civil d))
            rest := by
        simp only [get_days_since_now_aux, hp]
      rw [hL, ih]
      by_cases hk : e.name = k
      · subst hk
        have hbe : (e.name == e.name) = true := beq_self_eq_true e.name
        have hP : per_event_days now (e :: rest) e.name =
            (days_from_civil now - days_from_civil d) ::
              per_event_days now rest e.name := by
          simp only [per_event_days, hbe, hp, if_true]
        rw [lookup_insert_append_self, hP]
        cases hm : List.lookup e.name m with
        | none => simp
        | some l => simp [List.append_assoc]
      · have hbe : (e.name == k) = false := beq_eq_false_iff_ne.mpr hk
        have hP : per_event_days now (e :: rest) k =
            per_event_days now rest k := by
          simp only [per_event_days, hbe, Bool.false_eq_true, if_false]
        rw [lookup_insert_append_ne m _ hk, hP]

/-- A lookup in the result of `get_days_since_now`: the key is present
exactly when some occurrence of that event parses, and then holds the
days-since values in input order. -/
theorem get_days_since_now_lookup (now : NaiveDate)
    (evs : List EventOccurrence) (k : String) :
    List.lookup k (get_days_since_now now evs) =
      if per_event_days now evs k = [] then none
      else some (per_event_days now evs k) := by
  have h := get_days_since_now_aux_lookup now evs [] k
  simpa [get_days_since_now] using h

/-- Insert-or-append keeps the keys duplicate-free. -/
theorem keys_nodup_insert_append (m : List (String × List Int)) (k : String)
    (v : Int) (h : (m.map Prod.fst).Nodup) :
    ((insert_append m k v).map Prod.fst).Nodup := by
  rw [keys_insert_append]
  cases hs : (List.lookup k m).isSome with
  | true => simpa using h
  | false =>
    have hk : k ∉ m.map Prod.fst := by
      rw [mem_keys_iff_lookup_isSome, hs]
      simp
    simp [List.nodup_append, h, hk]

/-- The grouping loop keeps the keys duplicate-free. -/
theorem get_days_since_now_aux_keys_nodup (now : NaiveDate) :
    ∀ (evs : List EventOccurrence) (m : List (String × List Int)),
      (m.map Prod.fst).Nodup →
      ((get_days_since_now_aux now m evs).map Prod.fst).Nodup := by
  intro evs
  induction evs with
  | nil => intro m h; exact h
  | cons e rest ih =>
    intro m h
    cases hp : parse_from_str e.date with
    | none =>
      have hL : get_days_since_now_aux now m (e :: rest) =
          get_days_since_now_aux now m rest := by
        simp only [get_days_since_now_aux, hp]
      rw [hL]
      exact ih m h
    | some d =>
      have hL : get_days_since_now_aux now m (e :: rest) =
          get_days_since_now_aux now
            (insert_append m e.name (days_from_civil now - days_from_civil d))
            rest := by
        simp only [get_days_since_now_aux, hp]
      rw [hL]
      exact ih _ (keys_nodup_insert_append m _ _ h)

/-- The grouping loop only ever stores non-empty vectors. -/
theorem get_days_since_now_aux_values (now : NaiveDate) :
    ∀ (evs : List EventOccurrence) (m : List (String × List Int)),
      (∀ p ∈ m, p.2 ≠ []) →
      ∀ p ∈ get_days_since_now_aux now m evs, p.2 ≠ [] := by
  intro evs
  induction evs with
  | nil => intro m h; exact h
  | cons e rest ih =>
    intro m h
    cases hp : parse_from_str e.date with
    | none =>
      have hL : get_days_since_now_aux now m (e :: rest) =
          get_days_since_now_aux now m rest := by
        simp only [get_days_since_now_aux, hp]
      rw [hL]
      exact ih m h
    | some d =>
      have hL : get_days_since_now_aux now m (e :: rest) =
          get_days_since_now_aux now
            (insert_append m e.name (days_from_civil now - days_from_civil d))
            rest := by
        simp only [get_days_since_now_aux, hp]
      rw [hL]
      exact ih _ (insert_append_values_ne_nil m _ _ h)

/-! ### Characterization of the gap loop -/

/-- Lookup past an appended entry with another key. -/
theorem lookup_append_singleton_ne {α : Type} (m : List (String × α))
    {k q : String} (v : α) (h : k ≠ q) :
    List.lookup k (m ++ [(q, v)]) = List.lookup k m := by
  cases hm : List.lookup k m with
  | some w => exact lookup_append_left _ hm
  | none =>
    rw [lookup_append_right _ hm, List.lookup_cons, beq_eq_false_iff_ne.mpr h]
    rfl

/-- A key outside the key list cannot be looked up. -/
theorem lookup_eq_none_of_not_mem_keys {α : Type} (m : List (String × α))
    (k : String) (h : k ∉ m.map Prod.fst) : List.lookup k m = none := by
  cases hm : List.lookup k m with
  | none => rfl
  | some v =>
    exact absurd ((mem_keys_iff_lookup_isSome m k).mpr (by rw [hm]; rfl)) h

/-- The consecutive-difference vector is one shorter than its input. -/
theorem consecutive_diffs_length (l : List Int) :
    (consecutive_diffs l).length = l.length - 1 := by
  unfold consecutive_diffs
  rw [List.length_zipWith, List.length_tail]
  exact min_eq_right (Nat.sub_le _ _)

/-- At least two day counts give a non-empty difference vector. -/
theorem consecutive_diffs_ne_nil {l : List Int} (h : 1 < l.length) :
    consecutive_diffs l ≠ [] := by
  intro hc
  have hlen := congrArg List.length hc
  rw [consecutive_diffs_length] at hlen
  simp only [List.length_nil] at hlen
  omega

/-- Entry `i` of the difference vector is `l[i+1] - l[i]`. -/
theorem consecutive_diffs_getD (l : List Int) (i : Nat) (h : i + 1 < l.length) :
    (consecutive_diffs l).getD i 0 = l.getD (i + 1) 0 - l.getD i 0 := by
  have h1 : i < (consecutive_diffs l).length := by
    rw [consecutive_diffs_length]; omega
  have h2 : i + 1 < l.length := h
  have h3 : i < l.length := by omega
  have h4 : i < l.tail.length := by rw [List.length_tail]; omega
  rw [List.getD_eq_getElem _ _ h1, List.getD_eq_getElem _ _ h2,
    List.getD_eq_getElem _ _ h3]
  unfold consecutive_diffs
  rw [List.getElem_zipWith]
  rw [List.getElem_tail]

/-- A lookup after the gap loop ran over `m` starting from accumulator
`acc`, assuming `m` has duplicate-free keys all fresh for `acc`. -/
theorem get_elapsed_days_aux_lookup :
    ∀ (m acc : List (String × List Int)),
      (m.map Prod.fst).Nodup →
      (∀ q ∈ m.map Prod.fst, List.lookup q acc = none) →
      ∀ k, List.lookup k (get_elapsed_days_aux acc m) =
        match List.lookup k acc with
        | some v => some v
        | none =>
          match List.lookup k m with
          | some l => if 1 < l.length then some (consecutive_diffs l) else none
          | none => none := by
  intro m
  induction m with
  | nil =>
    intro acc _ _ k
    simp only [get_elapsed_days_aux]
    cases hLk : List.lookup k acc with
    | none => rfl
    | some v => rfl
  | cons p rest ih =>
    obtain ⟨k₀, v₀⟩ := p
    intro acc hnd hfresh k
    have hk₀acc : List.lookup k₀ acc = none := hfresh k₀ (by simp)
    have hk₀rest : k₀ ∉ rest.map Prod.fst := by
      rw [List.map_cons, List.nodup_cons] at hnd
      exact hnd.1
    have hndrest : (rest.map Prod.fst).Nodup := by
      rw [List.map_cons, List.nodup_cons] at hnd
      exact hnd.2
    have hk₀rest2 : List.lookup k₀ rest = none :=
      lookup_eq_none_of_not_mem_keys rest k₀ hk₀rest
    by_cases hlen : 1 < v₀.length
    · have hany : (acc.any (fun q => q.1 == k₀)) = false := by
        rw [any_key_eq_lookup_isSome, hk₀acc]
        rfl
      have hstep : get_elapsed_days_aux acc ((k₀, v₀) :: rest) =
          get_elapsed_days_aux (acc ++ [(k₀, consecutive_diffs v₀)]) rest := by
        simp only [get_elapsed_days_aux, if_pos hlen, entry_or_insert, hany,
          Bool.false_eq_true, if_false]
      have hfresh2 : ∀ q ∈ rest.map Prod.fst,
          List.lookup q (acc ++ [(k₀, consecutive_diffs v₀)]) = none := by
        intro q hq
        have hqk : q ≠ k₀ := fun hh => hk₀rest (hh ▸ hq)
        rw [lookup_append_singleton_ne _ _ hqk]
        exact hfresh q (by simp [hq])
      rw [hstep, ih _ hndrest hfresh2 k]
      by_cases hk : k = k₀
      · subst hk
        have h1 : List.lookup k (acc ++ [(k, consecutive_diffs v₀)]) =
            some (consecutive_diffs v₀) := by
          rw [lookup_append_right _ hk₀acc, List.lookup_cons, beq_self_eq_true]
        rw [h1, hk₀acc, List.lookup_cons, beq_self_eq_true]
        simp [hlen]
      · have hbk : (k == k₀) = false := beq_eq_false_iff_ne.mpr hk
        rw [lookup_append_singleton_ne _ _ hk, List.lookup_cons, hbk]
    · have hstep : get_elapsed_days_aux acc ((k₀, v₀) :: rest) =
          get_elapsed_days_aux acc rest := by
        simp only [get_elapsed_days_aux, if_neg hlen]
      rw [hstep, ih _ hndrest (fun q hq => hfresh q (by simp [hq])) k]
      by_cases hk : k = k₀
      · subst hk
        rw [hk₀acc, hk₀rest2, List.lookup_cons, beq_self_eq_true]
        simp [hlen]
      · have hbk : (k == k₀) = false := beq_eq_false_iff_ne.mpr hk
        rw [List.lookup_cons, hbk]

/-- The gap loop only ever stores non-empty vectors. -/
theorem get_elapsed_days_aux_values :
    ∀ (m acc : List (String × List Int)),
      (∀ p ∈ acc, p.2 ≠ []) →
      ∀ p ∈ get_elapsed_days_aux acc m, p.2 ≠ [] := by
  intro m
  induction m with
  | nil => intro acc h; exact h
  | cons q rest ih =>
    obtain ⟨k₀, v₀⟩ := q
    intro acc h
    by_cases hlen : 1 < v₀.length
    · have hstep : get_elapsed_days_aux acc ((k₀, v₀) :: rest) =
          get_elapsed_days_aux (entry_or_insert acc k₀ (consecutive_diffs v₀))
            rest := by
        simp only [get_elapsed_days_aux, if_pos hlen]
      rw [hstep]
      apply ih
      intro p hp
      unfold entry_or_insert at hp
      cases hc : acc.any (fun r => r.1 == k₀) with
      | true =>
        rw [hc, if_pos rfl] at hp
        exact h p hp
      | false =>
        rw [hc] at hp
        simp only [Bool.false_eq_true, if_false] at hp
        rcases List.mem_append.mp hp with h2 | h2
        · exact h p h2
        · rcases List.mem_singleton.mp h2 with rfl
          exact consecutive_diffs_ne_nil hlen
    · have hstep : get_elapsed_days_aux acc ((k₀, v₀) :: rest) =
          get_elapsed_days_aux acc rest := by
        simp only [get_elapsed_days_aux, if_neg hlen]
      rw [hstep]
      exact ih acc h

/-! ### Characterization of the averaging loop -/

/-- The averaging loop succeeds on non-empty gap vectors and maps every
first occurrence of a key to the truncating integer average. -/
theorem get_averages_aux_lookup :
    ∀ (gaps : List (String × List Int)) (acc : List (String × Int)),
      (∀ p ∈ gaps, p.2 ≠ []) →
      ∃ r, get_averages_aux acc gaps = some r ∧
        ∀ k, List.lookup k r =
          match List.lookup k acc with
          | some v => some v
          | none =>
            (List.lookup k gaps).map
              (fun l => Int.tdiv (int_sum l) (Int.ofNat l.length)) := by
  intro gaps
  induction gaps with
  | nil =>
    intro acc _
    refine ⟨acc, rfl, ?_⟩
    intro k
    cases hLk : List.lookup k acc with
    | none => rfl
    | some v => rfl
  | cons q rest ih =>
    obtain ⟨k₀, v₀⟩ := q
    intro acc h
    have hv₀ : v₀ ≠ [] := h (k₀, v₀) (by simp)
    have hlen : (v₀.length == 0) = false := by
      cases v₀ with
      | nil => exact absurd rfl hv₀
      | cons a t => rfl
    have hstep : get_averages_aux acc ((k₀, v₀) :: rest) =
        get_averages_aux
          (entry_or_insert acc k₀ (Int.tdiv (int_sum v₀) (Int.ofNat v₀.length)))
          rest := by
      simp only [get_averages_aux, hlen, Bool.false_eq_true, if_false]
    obtain ⟨r, hr, hrk⟩ :=
      ih (entry_or_insert acc k₀ (Int.tdiv (int_sum v₀) (Int.ofNat v₀.length)))
        (fun p hp => h p (by simp [hp]))
    refine ⟨r, by rw [hstep]; exact hr, ?_⟩
    intro k
    rw [hrk k]
    unfold entry_or_insert
    rw [any_key_eq_lookup_isSome]
    cases hka : List.lookup k₀ acc with
    | some w =>
      simp only [Option.isSome_some, if_true]
      by_cases hk : k = k₀
      · subst hk
        rw [hka, List.lookup_cons, beq_self_eq_true]
      · rw [List.lookup_cons, beq_eq_false_iff_ne.mpr hk]
    | none =>
      simp only [Option.isSome_none, Bool.false_eq_true, if_false]
      by_cases hk : k = k₀
      · subst hk
        rw [lookup_append_right _ hka, hka, List.lookup_cons, beq_self_eq_true,
          List.lookup_cons, beq_self_eq_true]
        rfl
      · rw [lookup_append_singleton_ne _ _ hk, List.lookup_cons,
          beq_eq_false_iff_ne.mpr hk]

/-! ### Characterization of the sorting stage -/

/-- On non-empty vectors the tuple-building loop succeeds and produces the
tuples in map-iteration order. -/
theorem make_tuples_eq (events : List (String × List Int))
    (averages : List (String × Int)) (h : ∀ p ∈ events, p.2 ≠ []) :
    make_tuples events averages = some (events.map (tuple_of averages)) := by
  induction events with
  | nil => rfl
  | cons p rest ih =>
    have hp : p.2 ≠ [] := h p (by simp)
    have hh : p.2.head? = some p.2.headI := by
      cases hv : p.2 with
      | nil => exact absurd hv hp
      | cons a t => rfl
    unfold make_tuples
    rw [List.mapM_cons, hh]
    have ih2 := ih (fun q hq => h q (by simp [hq]))
    unfold make_tuples at ih2
    rw [ih2]
    rfl

/-- On non-empty vectors `sort_events` succeeds, returning the stable sort
of the event tuples by days-since. -/
theorem sort_events_some (events : List (String × List Int))
    (averages : List (String × Int)) (h : ∀ p ∈ events, p.2 ≠ []) :
    sort_events events averages =
      some (List.insertionSort days_le (events.map (tuple_of averages))) := by
  unfold sort_events
  rw [make_tuples_eq events averages h]

/-! ### Equivalence machinery for the two gap implementations -/

/-- Insert-or-append on an absent key appends a fresh entry. -/
theorem insert_append_absent (m : List (String × List Int)) (k : String)
    (v : Int) (h : (m.any fun p => p.1 == k) = false) :
    insert_append m k v = m ++ [(k, [v])] := by
  unfold insert_append
  rw [h]
  simp

/-- Insert-or-append on the key of the last entry pushes onto it. -/
theorem insert_append_last_entry (acc : List (String × List Int)) (k : String)
    (u : List Int) (d : Int) (h : (acc.any fun p => p.1 == k) = false) :
    insert_append (acc ++ [(k, u)]) k d = acc ++ [(k, u ++ [d])] := by
  unfold insert_append
  have hany : ((acc ++ [(k, u)]).any fun p => p.1 == k) = true := by
    rw [List.any_append]
    simp [beq_self_eq_true]
  rw [hany, if_pos rfl, List.map_append]
  congr 1
  · have hid : ∀ p ∈ acc,
        (if p.1 == k then (p.1, p.2 ++ [d]) else p) = p := by
      intro p hp
      have hfalse : (p.1 == k) = false := by
        have h2 := List.any_eq_false.mp h p hp
        simpa using h2
      rw [hfalse]
      simp
    rw [List.map_congr_left hid]
    exact List.map_id acc
  · simp [beq_self_eq_true]

/-- Folding pushes into the last entry one at a time. -/
theorem foldl_insert_append_entry (v : List Int) :
    ∀ (acc : List (String × List Int)) (k : String) (u : List Int),
      (acc.any fun p => p.1 == k) = false →
      v.foldl (fun a d => insert_append a k d) (acc ++ [(k, u)]) =
        acc ++ [(k, u ++ v)] := by
  induction v with
  | nil => intro acc k u _; simp
  | cons d rest ih =>
    intro acc k u h
    rw [List.foldl_cons, insert_append_last_entry acc k u d h,
      ih acc k (u ++ [d]) h]
    simp [List.append_assoc]

/-- Folding a non-empty vector into a fresh key appends one entry holding
the whole vector: the one-push-at-a-time loop of
`EventsPage::get_elapsed_days` equals the one-shot insert of
`utils::get_elapsed_days`. -/
theorem foldl_insert_append_absent (v : List Int) (hv : v ≠ [])
    (acc : List (String × List Int)) (k : String)
    (h : (acc.any fun p => p.1 == k) = false) :
    v.foldl (fun a d => insert_append a k d) acc = acc ++ [(k, v)] := by
  cases v with
  | nil => exact absurd rfl hv
  | cons d rest =>
    rw [List.foldl_cons, insert_append_absent acc k d h,
      foldl_insert_append_entry rest acc k [d] h]
    rfl

/-- The entry-or-insert step on an absent key appends a fresh entry. -/
theorem entry_or_insert_absent {α : Type} (m : List (String × α)) (k : String)
    (v : α) (h : (m.any fun p => p.1 == k) = false) :
    entry_or_insert m k v = m ++ [(k, v)] := by
  unfold entry_or_insert
  rw [h]
  simp

/-- The two gap loops agree whenever the keys of the input are
duplicate-free and fresh for the accumulator. -/
theorem events_page_elapsed_aux_eq :
    ∀ (m acc : List (String × List Int)),
      (m.map Prod.fst).Nodup →
      (∀ q ∈ m.map Prod.fst, (acc.any fun p => p.1 == q) = false) →
      EventsPage.get_elapsed_days_aux acc m = get_elapsed_days_aux acc m := by
  intro m
  induction m with
  | nil => intro acc _ _; rfl
  | cons p rest ih =>
    obtain ⟨k₀, v₀⟩ := p
    intro acc hnd hfresh
    have hk₀ : (acc.any fun p => p.1 == k₀) = false := hfresh k₀ (by simp)
    have hk₀rest : k₀ ∉ rest.map Prod.fst := by
      rw [List.map_cons, List.nodup_cons] at hnd
      exact hnd.1
    have hndrest : (rest.map Prod.fst).Nodup := by
      rw [List.map_cons, List.nodup_cons] at hnd
      exact hnd.2
    by_cases hlen : 1 < v₀.length
    · have hL : EventsPage.get_elapsed_days_aux acc ((k₀, v₀) :: rest) =
          EventsPage.get_elapsed_days_aux
            ((consecutive_diffs v₀).foldl (fun a d => insert_append a k₀ d) acc)
            rest := by
        simp only [EventsPage.get_elapsed_days_aux, if_pos hlen]
      have hR : get_elapsed_days_aux acc ((k₀, v₀) :: rest) =
          get_elapsed_days_aux (entry_or_insert acc k₀ (consecutive_diffs v₀))
            rest := by
        simp only [get_elapsed_days_aux, if_pos hlen]
      rw [hL, hR,
        foldl_insert_append_absent (consecutive_diffs v₀)
          (consecutive_diffs_ne_nil hlen) acc k₀ hk₀,
        entry_or_insert_absent acc k₀ (consecutive_diffs v₀) hk₀]
      apply ih
      · exact hndrest
      · intro q hq
        have hqk : q ≠ k₀ := fun hh => hk₀rest (hh ▸ hq)
        rw [List.any_append, hfresh q (by simp [hq])]
        simp [beq_eq_false_iff_ne.mpr (fun hh => hqk hh.symm)]
    · have hL : EventsPage.get_elapsed_days_aux acc ((k₀, v₀) :: rest) =
          EventsPage.get_elapsed_days_aux acc rest := by
        simp only [EventsPage.get_elapsed_days_aux, if_neg hlen]
      have hR : get_elapsed_days_aux acc ((k₀, v₀) :: rest) =
          get_elapsed_days_aux acc rest := by
        simp only [get_elapsed_days_aux, if_neg hlen]
      rw [hL, hR]
      exact ih acc hndrest (fun q hq => hfresh q (by simp [hq]))

/-! ### Dropping malformed occurrences, and occurrence counting -/

/-- The grouping loop ignores an occurrence whose date fails to parse,
wherever it sits in the input. -/
theorem get_days_since_now_aux_drop (now : NaiveDate) (bad : EventOccurrence)
    (hbad : parse_from_str bad.date = none) (ys : List EventOccurrence) :
    ∀ (xs : List EventOccurrence) (m : List (String × List Int)),
      get_days_since_now_aux now m (xs ++ bad :: ys) =
        get_days_since_now_aux now m (xs ++ ys) := by
  intro xs
  induction xs with
  | nil =>
    intro m
    simp only [List.nil_append, get_days_since_now_aux, hbad]
  | cons e rest ih =>
    intro m
    simp only [List.cons_append, get_days_since_now_aux]
    cases hp : parse_from_str e.date with
    | none => exact ih m
    | some d => exact ih _

/-- When every date parses, each event's day vector is as long as its
occurrence count. -/
theorem per_event_days_length (now : NaiveDate) (evs : List EventOccurrence)
    (k : String) (h : ∀ e ∈ evs, (parse_from_str e.date).isSome) :
    (per_event_days now evs k).length =
      (evs.filter (fun e => e.name == k)).length := by
  induction evs with
  | nil => rfl
  | cons e rest ih =>
    have hp : (parse_from_str e.date).isSome = true := h e (by simp)
    obtain ⟨d, hd⟩ := Option.isSome_iff_exists.mp hp
    have ih2 := ih (fun q hq => h q (by simp [hq]))
    by_cases hk : e.name = k
    · have hbe : (e.name == k) = true := beq_iff_eq.mpr hk
      simp only [per_event_days, List.filter_cons, hbe, hd, if_true,
        List.length_cons]
      rw [ih2]
    · have hbe : (e.name == k) = false := beq_eq_false_iff_ne.mpr hk
      simp only [per_event_days, List.filter_cons, hbe, Bool.false_eq_true,
        if_false]
      exact ih2

/-- When every date parses, an event has a day vector exactly when its
name occurs in the input. -/
theorem per_event_days_ne_nil_iff (now : NaiveDate) (evs : List EventOccurrence)
    (k : String) (h : ∀ e ∈ evs, (parse_from_str e.date).isSome) :
    per_event_days now evs k ≠ [] ↔ k ∈ evs.map (fun e => e.name) := by
  have hlen := per_event_days_length now evs k h
  constructor
  · intro hne
    have hfil : evs.filter (fun e => e.name == k) ≠ [] := by
      intro hnil
      apply hne
      apply List.length_eq_zero.mp
      rw [hlen, hnil]
      rfl
    obtain ⟨e, he⟩ := List.exists_mem_of_ne_nil _ hfil
    have he2 := List.mem_filter.mp he
    exact List.mem_map.mpr ⟨e, he2.1, eq_of_beq he2.2⟩
  · intro hk hnil
    obtain ⟨e, he, hek⟩ := List.mem_map.mp hk
    have hfil : e ∈ evs.filter (fun e => e.name == k) :=
      List.mem_filter.mpr ⟨he, beq_iff_eq.mpr hek⟩
    have hzero : (evs.filter (fun e => e.name == k)).length = 0 := by
      rw [← hlen, hnil]
      rfl
    rw [List.length_eq_zero.mp hzero] at hfil
    exact absurd hfil (List.not_mem_nil e)

/-! ### The claims -/

/-- C1, counterexample: `get_days_since_now` does not sort.  With the
reference date 2023-04-22, the occurrences of event `A` on 2023-04-01 and
2023-04-11 (in that order) yield the per-event sequence `[21, 11]`, which
is not ascending and index 0 is not the smallest day count; swapping the
two input records changes the result, so the output is not
permutation-invariant either. -/
theorem c1_counterexample :
    List.lookup "A"
        (get_days_since_now ⟨2023, 4, 22⟩
          [⟨"A", "2023-04-01"⟩, ⟨"A", "2023-04-11"⟩]) = some [21, 11] ∧
      ¬ List.Sorted (fun a b => a ≤ b) ([21, 11] : List Int) ∧
      get_days_since_now ⟨2023, 4, 22⟩
          [⟨"A", "2023-04-11"⟩, ⟨"A", "2023-04-01"⟩] ≠
        get_days_since_now ⟨2023, 4, 22⟩
          [⟨"A", "2023-04-01"⟩, ⟨"A", "2023-04-11"⟩] := by
  refine ⟨by decide, by decide, by decide⟩

/-- C1, amended: `get_days_since_now` preserves input order instead of
sorting.  A key is present exactly when some occurrence of that event
parses, and its sequence lists the days-since values of the event's
parseable occurrences in input order — so it is ascending precisely when
the input presents each event's occurrences most-recent-first (as the
store's date-descending query does), not for arbitrary input orders. -/
theorem c1_order_preservation (now : NaiveDate) (evs : List EventOccurrence)
    (k : String) :
    List.lookup k (get_days_since_now now evs) =
      if per_event_days now evs k = [] then none
      else some (per_event_days now evs k) :=
  get_days_since_now_lookup now evs k

/-- C2: on a gaps map whose vectors are all non-empty (as
`get_elapsed_days` produces), `get_averages` succeeds and maps each key to
`sum / count` with truncation toward zero (`Int.tdiv`), also for negative
sums. -/
theorem c2_get_averages_truncating (gaps : List (String × List Int))
    (h : ∀ p ∈ gaps, p.2 ≠ []) :
    ∃ avgs, get_averages gaps = some avgs ∧
      ∀ k l, List.lookup k gaps = some l →
        List.lookup k avgs =
          some (Int.tdiv (int_sum l) (Int.ofNat l.length)) := by
  obtain ⟨r, hr, hrk⟩ := get_averages_aux_lookup gaps [] h
  refine ⟨r, hr, ?_⟩
  intro k l hkl
  rw [hrk k, hkl]
  rfl

/-- C2, witness: the spec example gaps `[10, 11, 11, 11]` average to
`43 / 4 = 10`, and a negative-sum vector `[-4, -3]` averages to
`tdiv (-7) 2 = -3` (truncation toward zero, where flooring would give
`-4`). -/
theorem c2_witness :
    (∀ p ∈ ([("event_0", [10, 11, 11, 11]), ("neg", [-4, -3])] :
        List (String × List Int)), p.2 ≠ []) ∧
      (∃ avgs,
        get_averages [("event_0", [10, 11, 11, 11]), ("neg", [-4, -3])] =
            some avgs ∧
          ∀ k l,
            List.lookup k
                ([("event_0", [10, 11, 11, 11]), ("neg", [-4, -3])] :
                  List (String × List Int)) = some l →
              List.lookup k avgs =
                some (Int.tdiv (int_sum l) (Int.ofNat l.length))) :=
  ⟨by decide, c2_get_averages_truncating _ (by decide)⟩

/-- C3: on a days-since map with duplicate-free keys, `get_elapsed_days`
omits every event with fewer than two entries (the key is absent) and maps
every event with `n ≥ 2` entries to its `n - 1` consecutive differences
`gap[i] = seq[i+1] - seq[i]`. -/
theorem c3_get_elapsed_days_spec (m : List (String × List Int))
    (h : (m.map Prod.fst).Nodup) :
    (∀ k, List.lookup k (get_elapsed_days m) =
        match List.lookup k m with
        | some l => if 1 < l.length then some (consecutive_diffs l) else none
        | none => none) ∧
      ∀ l : List Int, (consecutive_diffs l).length = l.length - 1 ∧
        ∀ i, i + 1 < l.length →
          (consecutive_diffs l).getD i 0 = l.getD (i + 1) 0 - l.getD i 0 := by
  constructor
  · intro k
    have h2 := get_elapsed_days_aux_lookup m [] h (fun q _ => rfl) k
    show List.lookup k (get_elapsed_days_aux [] m) = _
    rw [h2]
    rfl
  · intro l
    exact ⟨consecutive_diffs_length l, fun i hi => consecutive_diffs_getD l i hi⟩

/-- C3, witness: on `{a ↦ [1, 11, 22], b ↦ [5]}` the event `b` with one
entry is absent from the gaps and `a` gets its two differences. -/
theorem c3_witness :
    ((([("a", [1, 11, 22]), ("b", [5])] :
        List (String × List Int)).map Prod.fst).Nodup) ∧
      ((∀ k, List.lookup k
          (get_elapsed_days [("a", [1, 11, 22]), ("b", [5])]) =
          match List.lookup k
              ([("a", [1, 11, 22]), ("b", [5])] : List (String × List Int)) with
          | some l => if 1 < l.length then some (consecutive_diffs l) else none
          | none => none) ∧
        ∀ l : List Int, (consecutive_diffs l).length = l.length - 1 ∧
          ∀ i, i + 1 < l.length →
            (consecutive_diffs l).getD i 0 = l.getD (i + 1) 0 - l.getD i 0) :=
  ⟨by decide, c3_get_elapsed_days_spec _ (by decide)⟩

/-- C4: on a history map whose vectors are all non-empty, `sort_events`
succeeds, emits exactly one tuple `(name, history[name][0],
averages.get(name).unwrap_or(0))` per event entry, and the resulting list
is sorted ascending by the days-since component. -/
theorem c4_sort_events_sorted (events : List (String × List Int))
    (averages : List (String × Int)) (h : ∀ p ∈ events, p.2 ≠ []) :
    ∃ out, sort_events events averages = some out ∧
      out.Perm (events.map (tuple_of averages)) ∧
      List.Sorted days_le out :=
  ⟨List.insertionSort days_le (events.map (tuple_of averages)),
    sort_events_some events averages h,
    List.perm_insertionSort days_le (events.map (tuple_of averages)),
    List.sorted_insertionSort days_le (events.map (tuple_of averages))⟩

/-- C4, witness: the doc-test of `sort_events`
(`{foo ↦ [4, ...], bar ↦ [1, ...]}`, averages `{foo ↦ 22, bar ↦ 11}`). -/
theorem c4_witness :
    (∀ p ∈ ([("foo", [4, 11, 22, 33, 44]), ("bar", [1, 6, 11, 16, 21])] :
        List (String × List Int)), p.2 ≠ []) ∧
      ∃ out,
        sort_events [("foo", [4, 11, 22, 33, 44]), ("bar", [1, 6, 11, 16, 21])]
            [("foo", 22), ("bar", 11)] = some out ∧
          out.Perm
            (([("foo", [4, 11, 22, 33, 44]), ("bar", [1, 6, 11, 16, 21])] :
              List (String × List Int)).map
                (tuple_of [("foo", 22), ("bar", 11)])) ∧
          List.Sorted days_le out :=
  ⟨by decide, c4_sort_events_sorted _ _ (by decide)⟩

/-- C5: the pipeline of `event_details` never panics: the vectors built by
`get_days_since_now` are all non-empty, so the `[0]` index of
`sort_events` is safe, and the vectors built by `get_elapsed_days` are all
non-empty, so the division of `get_averages` is safe; for every occurrence
list both stages return a value. -/
theorem c5_pipeline_total (now : NaiveDate) (evs : List EventOccurrence) :
    (get_averages (get_elapsed_days (get_days_since_now now evs))).isSome ∧
      (event_details now evs).isSome := by
  have hdays : ∀ p ∈ get_days_since_now now evs, p.2 ≠ [] :=
    get_days_since_now_aux_values now evs []
      (fun p hp => absurd hp (List.not_mem_nil p))
  have hgaps : ∀ p ∈ get_elapsed_days (get_days_since_now now evs), p.2 ≠ [] :=
    get_elapsed_days_aux_values (get_days_since_now now evs) []
      (fun p hp => absurd hp (List.not_mem_nil p))
  obtain ⟨avgs, havgs, _⟩ :=
    get_averages_aux_lookup (get_elapsed_days (get_days_since_now now evs)) []
      hgaps
  have hA : get_averages (get_elapsed_days (get_days_since_now now evs)) =
      some avgs := havgs
  have hS := sort_events_some (get_days_since_now now evs) avgs hdays
  constructor
  · rw [hA]
    rfl
  · show (match
        get_averages (get_elapsed_days (get_days_since_now now evs)) with
      | none => none
      | some averages =>
        sort_events (get_days_since_now now evs) averages).isSome
    rw [hA]
    show (sort_events (get_days_since_now now evs) avgs).isSome
    rw [hS]
    rfl

/-- C6, counterexample: the final order is not a function of the input.
The two association lists below are the same map (a permutation — the
possible iteration orders of one `HashMap`), yet `sort_events` returns
differently ordered summaries for them, because their days-since keys tie
and Rust's stable sort keeps the unspecified iteration order of the map.
Two runs on identical occurrences may therefore display different
orders. -/
theorem c6_counterexample :
    ([("B", [(2 : Int)]), ("A", [2])] : List (String × List Int)).Perm
        [("A", [2]), ("B", [2])] ∧
      sort_events [("A", [(2 : Int)]), ("B", [2])] [] ≠
        sort_events [("B", [(2 : Int)]), ("A", [2])] [] := by
  refine ⟨by decide, by decide⟩

/-- C6, amended: the pipeline is deterministic up to the sort's treatment
of tied days-since values: for any two iteration orders of the same
history map, `sort_events` succeeds on both, the two summaries are
permutations of each other, and both are sorted ascending by days-since
(so they coincide whenever no two events tie). -/
theorem c6_deterministic_up_to_ties (h₁ h₂ : List (String × List Int))
    (avgs : List (String × Int)) (hperm : h₁.Perm h₂)
    (h : ∀ p ∈ h₁, p.2 ≠ []) :
    ∃ o₁ o₂, sort_events h₁ avgs = some o₁ ∧ sort_events h₂ avgs = some o₂ ∧
      o₁.Perm o₂ ∧ List.Sorted days_le o₁ ∧ List.Sorted days_le o₂ := by
  have h2 : ∀ p ∈ h₂, p.2 ≠ [] := fun p hp => h p (hperm.mem_iff.mpr hp)
  refine ⟨List.insertionSort days_le (h₁.map (tuple_of avgs)),
    List.insertionSort days_le (h₂.map (tuple_of avgs)),
    sort_events_some h₁ avgs h, sort_events_some h₂ avgs h2, ?_,
    List.sorted_insertionSort days_le (h₁.map (tuple_of avgs)),
    List.sorted_insertionSort days_le (h₂.map (tuple_of avgs))⟩
  exact (List.perm_insertionSort days_le (h₁.map (tuple_of avgs))).trans
    ((hperm.map (tuple_of avgs)).trans
      (List.perm_insertionSort days_le (h₂.map (tuple_of avgs))).symm)

/-- C6, witness for the amended theorem at a concrete tied map. -/
theorem c6_witness :
    (([("B", [(2 : Int)]), ("A", [2])] : List (String × List Int)).Perm
        [("A", [2]), ("B", [2])] ∧
      ∀ p ∈ ([("B", [(2 : Int)]), ("A", [2])] : List (String × List Int)),
        p.2 ≠ []) ∧
      ∃ o₁ o₂, sort_events [("B", [(2 : Int)]), ("A", [2])] [] = some o₁ ∧
        sort_events [("A", [(2 : Int)]), ("B", [2])] [] = some o₂ ∧
        o₁.Perm o₂ ∧ List.Sorted days_le o₁ ∧ List.Sorted days_le o₂ :=
  ⟨⟨by decide, by decide⟩,
    c6_deterministic_up_to_ties _ _ _ (by decide) (by decide)⟩

/-- C7: when the occurrence list is non-empty and every date parses,
`get_days_since_now` groups by event name: the keys are duplicate-free, a
name is a key exactly when it names some input occurrence, and each key's
vector is non-empty with length equal to that event's occurrence count. -/
theorem c7_grouping (now : NaiveDate) (evs : List EventOccurrence)
    (hne : evs ≠ []) (hparse : ∀ e ∈ evs, (parse_from_str e.date).isSome) :
    ((get_days_since_now now evs).map Prod.fst).Nodup ∧
      (∀ k, k ∈ (get_days_since_now now evs).map Prod.fst ↔
        k ∈ evs.map (fun e => e.name)) ∧
      ∀ k l, List.lookup k (get_days_since_now now evs) = some l →
        l.length = (evs.filter (fun e => e.name == k)).length ∧ l ≠ [] := by
  refine ⟨get_days_since_now_aux_keys_nodup now evs [] (by simp), ?_, ?_⟩
  · intro k
    rw [mem_keys_iff_lookup_isSome, get_days_since_now_lookup]
    by_cases hp : per_event_days now evs k = []
    · rw [if_pos hp]
      simp only [Option.isSome_none, Bool.false_eq_true, false_iff]
      intro hk
      exact (per_event_days_ne_nil_iff now evs k hparse).mpr hk hp
    · rw [if_neg hp]
      simp only [Option.isSome_some, true_iff]
      exact (per_event_days_ne_nil_iff now evs k hparse).mp hp
  · intro k l hkl
    rw [get_days_since_now_lookup] at hkl
    by_cases hp : per_event_days now evs k = []
    · rw [if_pos hp] at hkl
      exact absurd hkl (by simp)
    · rw [if_neg hp] at hkl
      obtain rfl := Option.some.inj hkl
      exact ⟨per_event_days_length now evs k hparse, hp⟩

/-- C7, witness: three occurrences of two events, all dates parsing. -/
theorem c7_witness :
    (([⟨"A", "2023-04-20"⟩, ⟨"B", "2023-04-21"⟩, ⟨"A", "2023-04-10"⟩] :
        List EventOccurrence) ≠ [] ∧
      ∀ e ∈ ([⟨"A", "2023-04-20"⟩, ⟨"B", "2023-04-21"⟩,
          ⟨"A", "2023-04-10"⟩] : List EventOccurrence),
        (parse_from_str e.date).isSome) ∧
      ((get_days_since_now ⟨2023, 4, 22⟩
          [⟨"A", "2023-04-20"⟩, ⟨"B", "2023-04-21"⟩,
            ⟨"A", "2023-04-10"⟩]).map Prod.fst).Nodup ∧
      (∀ k, k ∈ (get_days_since_now ⟨2023, 4, 22⟩
          [⟨"A", "2023-04-20"⟩, ⟨"B", "2023-04-21"⟩,
            ⟨"A", "2023-04-10"⟩]).map Prod.fst ↔
        k ∈ ([⟨"A", "2023-04-20"⟩, ⟨"B", "2023-04-21"⟩,
          ⟨"A", "2023-04-10"⟩] : List EventOccurrence).map
            (fun e => e.name)) ∧
      ∀ k l, List.lookup k (get_days_since_now ⟨2023, 4, 22⟩
          [⟨"A", "2023-04-20"⟩, ⟨"B", "2023-04-21"⟩,
            ⟨"A", "2023-04-10"⟩]) = some l →
        l.length = (([⟨"A", "2023-04-20"⟩, ⟨"B", "2023-04-21"⟩,
          ⟨"A", "2023-04-10"⟩] : List EventOccurrence).filter
            (fun e => e.name == k)).length ∧ l ≠ [] :=
  ⟨⟨by decide, by decide⟩, c7_grouping _ _ (by decide) (by decide)⟩

/-- C8, counterexample: the claim fails for the second cited
implementation.  `EventsPage::get_days_since_now` unwraps the parse
result, so one unparseable date terminates the whole computation (`none`
models the panic): the bad record is not dropped, the remaining good
occurrence is never processed, while dropping it would have produced
`{A ↦ [2]}`. -/
theorem c8_counterexample :
    EventsPage.get_days_since_now ⟨2023, 4, 22⟩
        [⟨"A", "oops"⟩, ⟨"A", "2023-04-20"⟩] = none ∧
      EventsPage.get_days_since_now ⟨2023, 4, 22⟩ [⟨"A", "2023-04-20"⟩] =
        some [("A", [2])] ∧
      parse_from_str "oops" = none := by
  refine ⟨by decide, by decide, by decide⟩

/-- C8, amended: the engine copy, `utils::get_days_since_now`, does drop a
record whose date fails to parse, wherever it sits: the result equals the
result on the input with that record removed, so the malformed occurrence
contributes nothing and the remaining ones are processed normally.  (The
older `EventsPage::get_days_since_now` instead panics on such a record.)
-/
theorem c8_drop_malformed (now : NaiveDate) (bad : EventOccurrence)
    (hbad : parse_from_str bad.date = none) (xs ys : List EventOccurrence) :
    get_days_since_now now (xs ++ bad :: ys) =
      get_days_since_now now (xs ++ ys) :=
  get_days_since_now_aux_drop now bad hbad ys xs []

/-- C8, witness: a malformed record between two good ones is dropped. -/
theorem c8_witness :
    parse_from_str (EventOccurrence.mk "A" "nope").date = none ∧
      get_days_since_now ⟨2023, 4, 22⟩
          ([⟨"B", "2023-04-20"⟩] ++ ⟨"A", "nope"⟩ :: [⟨"A", "2023-04-21"⟩]) =
        get_days_since_now ⟨2023, 4, 22⟩
          ([⟨"B", "2023-04-20"⟩] ++ [⟨"A", "2023-04-21"⟩]) :=
  ⟨by decide,
    c8_drop_malformed ⟨2023, 4, 22⟩ ⟨"A", "nope"⟩ (by decide)
      [⟨"B", "2023-04-20"⟩] [⟨"A", "2023-04-21"⟩]⟩

/-- C9: on the empty occurrence list every stage returns an empty
collection and no stage panics: the days-since map, the gaps map and the
averages map are empty, and the summary list is empty. -/
theorem c9_empty_pipeline (now : NaiveDate) :
    get_days_since_now now [] = [] ∧
      get_elapsed_days (get_days_since_now now []) = [] ∧
      get_averages (get_elapsed_days (get_days_since_now now [])) = some [] ∧
      event_details now [] = some [] :=
  ⟨rfl, rfl, rfl, rfl⟩

/-- C10: on any days-since map with duplicate-free keys (as a `HashMap`
iteration yields), `utils::get_elapsed_days` and
`EventsPage::get_elapsed_days` return the same map. -/
theorem c10_elapsed_equiv (m : List (String × List Int))
    (h : (m.map Prod.fst).Nodup) :
    EventsPage.get_elapsed_days m = get_elapsed_days m :=
  events_page_elapsed_aux_eq m [] h (fun q _ => rfl)

/-- C10, witness: the doc-test input of `get_elapsed_days`. -/
theorem c10_witness :
    ((([("event_0", [1, 11, 22, 33, 44]), ("event_1", [1, 6, 8, 16, 20])] :
        List (String × List Int)).map Prod.fst).Nodup) ∧
      EventsPage.get_elapsed_days
          [("event_0", [1, 11, 22, 33, 44]), ("event_1", [1, 6, 8, 16, 20])] =
        get_elapsed_days
          [("event_0", [1, 11, 22, 33, 44]), ("event_1", [1, 6, 8, 16, 20])] :=
  ⟨by decide, c10_elapsed_equiv _ (by decide)⟩
